import Mathlib

/-!
Verification of `util/chunk/list.go` (`ListInMemory`): an in-memory,
append-optimized chunk list with lazy per-chunk memory accounting.

The `Chunk` type itself is external to the repository slice (only its
interface is used by `list.go`), so it is modelled from the spec's Block
primitive.  `ListInMemory` and all of its operations are translated
directly from the Go source.  Go panics (out-of-range indexing) are
modelled by `Option`: `none` means the corresponding Go code would panic.
Rows are abstract (a type parameter `α`); the memory tracker is modelled
by its running total, an `Int` to which `Consume` deltas are added.
-/

namespace ChunkList

/-- Modelled from the spec: the external Block primitive (`Chunk` in Go) —
a fixed-capacity mutable sequence of rows with a queryable row count,
capacity and memory footprint.  The footprint is pre-sized storage: it
does not change as rows are appended within capacity, and `reset` retains
capacity and footprint.  Footprints of freshly constructed chunks use one
abstract byte-unit per capacity slot. -/
structure Chunk (α : Type) where
  rows : List α
  cap : Nat
  mem : Nat
deriving Repr, DecidableEq

/-- Modelled from the spec: `rowCount()` of the Block primitive. -/
def Chunk.NumRows {α : Type} (c : Chunk α) : Nat := c.rows.length

/-- Modelled from the spec: `capacity()` of the Block primitive. -/
def Chunk.Capacity {α : Type} (c : Chunk α) : Nat := c.cap

/-- Modelled from the spec: `footprintBytes()` of the Block primitive. -/
def Chunk.MemoryUsage {α : Type} (c : Chunk α) : Nat := c.mem

/-- Modelled from the spec: `appendRow(row)` of the Block primitive
(footprint is pre-sized, hence unchanged). -/
def Chunk.appendRow {α : Type} (c : Chunk α) (row : α) : Chunk α :=
  { c with rows := c.rows ++ [row] }

/-- Modelled from the spec: `resetToEmpty()` — clears rows, retains
capacity and identity (footprint kept, it is pre-sized storage). -/
def Chunk.Reset {α : Type} (c : Chunk α) : Chunk α :=
  { c with rows := [] }

/-- Modelled from the spec: `getRow(offset)` of the Block primitive;
out-of-range access is a Go panic, modelled as `none`. -/
def Chunk.GetRow {α : Type} (c : Chunk α) (i : Nat) : Option α :=
  c.rows[i]?

/-- Modelled from the spec: `newBlock(schema, capacity)` — fresh empty
Block with the given capacity, footprint reflecting full pre-sized
capacity. -/
def Chunk.make (α : Type) (capacity : Nat) : Chunk α :=
  ⟨[], capacity, capacity⟩

/-- Modelled from the spec: `growFrom(previousBlock, maxCapacity)`
(`Renew` in Go) — a new empty Block whose capacity is
`min(2 × previous.capacity, maxCapacity)`, sharing schema. -/
def Renew {α : Type} (c : Chunk α) (maxChunkSize : Nat) : Chunk α :=
  Chunk.make α (min (2 * c.cap) maxChunkSize)

/-- Modelled from the spec: the Block-side half of the reserve path
(`chk.preAlloc(row)` in Go) — appends placeholder content sized like the
shape-hint row and returns the offset of the reserved slot. -/
def Chunk.preAlloc {α : Type} (c : Chunk α) (row : α) : Nat × Chunk α :=
  (c.rows.length, { c with rows := c.rows ++ [row] })

/-- Modelled from the spec: the Block-side half of the fill path
(`chk.insert(rowIdx, row)` in Go) — overwrites the slot at `i`;
out-of-range is a Go panic, modelled as `none`. -/
def Chunk.insertAt {α : Type} (c : Chunk α) (i : Nat) (row : α) : Option (Chunk α) :=
  if i < c.rows.length then some { c with rows := c.rows.set i row } else none

/-- `RowPtr` from `list.go`: a (chunk index, in-chunk offset) address. -/
structure RowPtr where
  ChkIdx : Nat
  RowIdx : Nat
deriving Repr, DecidableEq

/-- `ListInMemory` from `list.go`.  `tracker` is the running total of the
attached memory tracker (`memTracker.Consume` adds signed deltas to it). -/
structure ListInMemory (α : Type) where
  initChunkSize : Nat
  maxChunkSize : Nat
  length : Nat
  chunks : List (Chunk α)
  freelist : List (Chunk α)
  tracker : Int
  consumedIdx : Int
deriving Repr, DecidableEq

/-- Indexing a Go slice at a possibly negative index: negative or
out-of-range indices panic (`none`). -/
def getI {β : Type} (xs : List β) (i : Int) : Option β :=
  if i < 0 then none else xs[i.toNat]?

/-- `NewListInMemory` from `list.go`: empty list, `consumedIdx = -1`,
fresh tracker with zero total. -/
def NewListInMemory (α : Type) (initChunkSize maxChunkSize : Nat) : ListInMemory α :=
  { initChunkSize := initChunkSize
    maxChunkSize := maxChunkSize
    length := 0
    chunks := []
    freelist := []
    tracker := 0
    consumedIdx := -1 }

/-- `ListInMemory.Len` from `list.go`. -/
def ListInMemory.Len {α : Type} (l : ListInMemory α) : Nat := l.length

/-- `ListInMemory.NumChunks` from `list.go`. -/
def ListInMemory.NumChunks {α : Type} (l : ListInMemory α) : Nat := l.chunks.length

/-- `ListInMemory.GetChunk` from `list.go` (panic on bad index → `none`). -/
def ListInMemory.GetChunk {α : Type} (l : ListInMemory α) (chkIdx : Nat) : Option (Chunk α) :=
  l.chunks[chkIdx]?

/-- `ListInMemory.NumRowsOfChunk` from `list.go`. -/
def ListInMemory.NumRowsOfChunk {α : Type} (l : ListInMemory α) (chkID : Nat) : Option Nat :=
  (l.GetChunk chkID).map Chunk.NumRows

/-- `ListInMemory.GetRow` from `list.go`: in Go the returned error is
always nil; out-of-range pointers panic, modelled as `none`. -/
def ListInMemory.GetRow {α : Type} (l : ListInMemory α) (ptr : RowPtr) : Option α :=
  (l.chunks[ptr.ChkIdx]?).bind fun chk => chk.GetRow ptr.RowIdx

/-- `ListInMemory.allocChunk` from `list.go`: pop the freelist (LIFO),
releasing the popped chunk's footprint from the tracker and resetting it;
else grow from the last chunk; else a fresh chunk of `initChunkSize`. -/
def ListInMemory.allocChunk {α : Type} (l : ListInMemory α) : Chunk α × ListInMemory α :=
  match l.freelist.getLast? with
  | some chk =>
      (chk.Reset,
        { l with freelist := l.freelist.dropLast
                 tracker := l.tracker - (chk.MemoryUsage : Int) })
  | none =>
      match l.chunks.getLast? with
      | some last => (Renew last l.maxChunkSize, l)
      | none => (Chunk.make α l.initChunkSize, l)

/-- The sealing step shared by `AppendRow`, `Add` and `Reset` in
`list.go`: when `chkIdx` differs from `consumedIdx`, charge the tracker
with the footprint of the chunk at `chkIdx` and record it as consumed;
a read at index −1 is the Go panic (`none`).  (`Reset` in the source
skips the `consumedIdx` write because it overwrites it with −1 right
after; the composed state is identical.) -/
def ListInMemory.sealAt {α : Type} (l : ListInMemory α) (chkIdx : Int) :
    Option (ListInMemory α) :=
  if chkIdx = l.consumedIdx then some l
  else
    match getI l.chunks chkIdx with
    | some c =>
        some { l with tracker := l.tracker + (c.MemoryUsage : Int)
                      consumedIdx := chkIdx }
    | none => none

/-- The push condition of `AppendRow` in `list.go`:
`chkIdx == -1 || chunks[chkIdx].NumRows() >= chunks[chkIdx].Capacity()
|| chkIdx == consumedIdx`. -/
def ListInMemory.needNewChunk {α : Type} (l : ListInMemory α) : Bool :=
  match l.chunks.getLast? with
  | none => true
  | some c =>
      decide (c.NumRows ≥ c.Capacity) ||
        decide ((l.chunks.length : Int) - 1 = l.consumedIdx)

/-- The push condition of `preAlloc4Row` in `list.go`:
`chkIdx == -1 || chunks[chkIdx].NumRows() >= chunks[chkIdx].Capacity()`
(it omits `AppendRow`'s `chkIdx == consumedIdx` disjunct). -/
def ListInMemory.needNewChunkPre {α : Type} (l : ListInMemory α) : Bool :=
  match l.chunks.getLast? with
  | none => true
  | some c => decide (c.NumRows ≥ c.Capacity)

/-- The tail of `AppendRow` in `list.go`: append the row in place to the
last chunk, bump `length`, and return the pointer of the just-written
slot.  An empty chunk list here would be a Go panic (`none`); it cannot
occur after the push decision. -/
def ListInMemory.appendToLast {α : Type} (l : ListInMemory α) (row : α) :
    Option (RowPtr × ListInMemory α) :=
  match l.chunks.getLast? with
  | none => none
  | some chk =>
      some (⟨l.chunks.length - 1, chk.NumRows⟩,
        { l with chunks := l.chunks.dropLast ++ [chk.appendRow row]
                 length := l.length + 1 })

/-- The shared push step of `AppendRow`/`preAlloc4Row` in `list.go`:
acquire a chunk via `allocChunk`, push it, then seal the previous last
chunk (at index `old length − 1`) unless its index equals `consumedIdx`. -/
def ListInMemory.pushNewChunk {α : Type} (l : ListInMemory α) :
    Option (ListInMemory α) :=
  let chkIdx : Int := (l.chunks.length : Int) - 1
  let p := l.allocChunk
  ListInMemory.sealAt { p.2 with chunks := p.2.chunks ++ [p.1] } chkIdx

/-- `ListInMemory.AppendRow` from `list.go`.  The push condition, the
sealing step (charge the previous last chunk once, when its index differs
from `consumedIdx`) and the final in-place append follow the source line
by line; `none` marks the state in which the Go code would panic
(sealing read at index −1). -/
def ListInMemory.AppendRow {α : Type} (l : ListInMemory α) (row : α) :
    Option (RowPtr × ListInMemory α) :=
  let afterPush : Option (ListInMemory α) :=
    if l.needNewChunk then l.pushNewChunk else some l
  afterPush.bind fun l3 => l3.appendToLast row

/-- The error message `Add` returns on an empty chunk, from `list.go`. -/
def emptyChunkErr : String := "chunk appended to ListInMemory should have at least 1 row"

/-- `ListInMemory.Add` from `list.go`: reject empty chunks; seal the
current last chunk if unsealed; charge the incoming chunk immediately,
append it and advance `consumedIdx` to it.  The outer `Option` is the Go
panic (sealing read at index −1); the inner `Option String` is the
returned `error` (`none` = nil). -/
def ListInMemory.Add {α : Type} (l : ListInMemory α) (chk : Chunk α) :
    Option (ListInMemory α × Option String) :=
  if chk.NumRows = 0 then
    some (l, some emptyChunkErr)
  else
    (l.sealAt ((l.chunks.length : Int) - 1)).map fun l1 =>
      ({ l1 with tracker := l1.tracker + (chk.MemoryUsage : Int)
                 consumedIdx := l1.consumedIdx + 1
                 chunks := l1.chunks ++ [chk]
                 length := l1.length + chk.NumRows }, none)

/-- `ListInMemory.Reset` from `list.go`: seal the last chunk if unsealed,
move all chunks onto the freelist (appending, not clearing it), clear
`chunks`, zero `length`, set `consumedIdx = -1`. -/
def ListInMemory.Reset {α : Type} (l : ListInMemory α) : Option (ListInMemory α) :=
  (l.sealAt ((l.chunks.length : Int) - 1)).map fun l1 =>
    { l1 with freelist := l1.freelist ++ l1.chunks
              chunks := []
              length := 0
              consumedIdx := -1 }

/-- `ListInMemory.preAlloc4Row` from `list.go`: like `AppendRow`, but the
push condition omits the `chkIdx == consumedIdx` disjunct, and the row
slot is reserved via the chunk's `preAlloc` instead of a final append. -/
def ListInMemory.preAlloc4Row {α : Type} (l : ListInMemory α) (row : α) :
    Option (RowPtr × ListInMemory α) :=
  let afterPush : Option (ListInMemory α) :=
    if l.needNewChunkPre then l.pushNewChunk else some l
  afterPush.bind fun l3 =>
    match l3.chunks.getLast? with
    | none => none
    | some chk =>
        let (rowIdx, chk1) := chk.preAlloc row
        some (⟨l3.chunks.length - 1, rowIdx⟩,
          { l3 with chunks := l3.chunks.dropLast ++ [chk1]
                    length := l3.length + 1 })

/-- `ListInMemory.Insert` from `list.go`: overwrite the slot addressed by
`ptr` (panic on a bad pointer → `none`). -/
def ListInMemory.Insert {α : Type} (l : ListInMemory α) (ptr : RowPtr) (row : α) :
    Option (ListInMemory α) :=
  (l.chunks[ptr.ChkIdx]?).bind fun chk =>
    (chk.insertAt ptr.RowIdx row).map fun chk1 =>
      { l with chunks := l.chunks.set ptr.ChkIdx chk1 }

/-- The row sequence `Walk` traverses: chunk-major, in-chunk-offset-minor
order, read off from the chunk list. -/
def walkSeq {α : Type} (l : ListInMemory α) : List α :=
  (l.chunks.map Chunk.rows).flatten

/-- The visitor loop of `ListInMemory.Walk` from `list.go`, over the
flattened row sequence: stop at the first visitor failure, wrapping it
with `tr` (the `errors.Trace` context). -/
def walkList {α ε : Type} (tr : ε → ε) (f : α → Except ε Unit) : List α → Except ε Unit
  | [] => .ok ()
  | r :: rs =>
      match f r with
      | .ok _ => walkList tr f rs
      | .error e => .error (tr e)

/-- `ListInMemory.Walk` from `list.go`. -/
def ListInMemory.Walk {α ε : Type} (l : ListInMemory α) (tr : ε → ε)
    (f : α → Except ε Unit) : Except ε Unit :=
  walkList tr f (walkSeq l)

/-- The rows on which `Walk`'s visitor is actually invoked (a
specification device: the visited prefix of the traversal order). -/
def walkVisited {α ε : Type} (f : α → Except ε Unit) : List α → List α
  | [] => []
  | r :: rs =>
      match f r with
      | .ok _ => r :: walkVisited f rs
      | .error _ => [r]

/-- Total number of rows held by the chunks (the spec's
`rowCount = Σ block row counts`). -/
def rowSum {α : Type} (l : ListInMemory α) : Nat :=
  (l.chunks.map Chunk.NumRows).sum

/-- Sum of the footprints of `chunks[0..consumedIdx]` — the portion of
the tracker total attributable to sealed chunks. -/
def chargedMem {α : Type} (l : ListInMemory α) : Nat :=
  ((l.chunks.map Chunk.MemoryUsage).take (l.consumedIdx + 1).toNat).sum

/-- Sum of the footprints of the freelist's retired chunks (each still
carries the charge it received when sealed). -/
def freeMem {α : Type} (l : ListInMemory α) : Nat :=
  (l.freelist.map Chunk.MemoryUsage).sum

/-- The basic well-formedness used throughout: an empty chunk list means
nothing has been consumed.  It rules out the only states in which the
source would panic on a sealing read at index −1. -/
def WFidx {α : Type} (l : ListInMemory α) : Prop :=
  l.chunks = [] → l.consumedIdx = -1

instance {α : Type} (l : ListInMemory α) [DecidableEq α] : Decidable (WFidx l) := by
  unfold WFidx; infer_instance

/-- The full state invariant maintained by `AppendRow`, `Add` and
`Reset`: `length` counts the stored rows; `consumedIdx` is the last or
second-to-last chunk index (−1 when no chunks); the tracker total is the
footprint of the sealed prefix plus the retired chunks on the freelist. -/
def Inv {α : Type} (l : ListInMemory α) : Prop :=
  l.length = rowSum l ∧
  (l.consumedIdx = (l.chunks.length : Int) - 1 ∨
    (1 ≤ l.chunks.length ∧ l.consumedIdx = (l.chunks.length : Int) - 2)) ∧
  l.tracker = (chargedMem l : Int) + (freeMem l : Int)

/-- States reachable from a freshly constructed list by `AppendRow`,
`Add` and `Reset`. -/
inductive Reachable {α : Type} : ListInMemory α → Prop
  | new (i m : Nat) : Reachable (NewListInMemory α i m)
  | append {l : ListInMemory α} {r : α} {p : RowPtr} {l' : ListInMemory α} :
      Reachable l → l.AppendRow r = some (p, l') → Reachable l'
  | add {l l' : ListInMemory α} {c : Chunk α} {e : Option String} :
      Reachable l → l.Add c = some (l', e) → Reachable l'
  | reset {l l' : ListInMemory α} :
      Reachable l → l.Reset = some l' → Reachable l'

/-- Appending a whole row sequence with `AppendRow`, collecting the
returned pointers in order. -/
def appendAll {α : Type} (l : ListInMemory α) :
    List α → Option (List RowPtr × ListInMemory α)
  | [] => some ([], l)
  | r :: rs =>
      (l.AppendRow r).bind fun p =>
        (appendAll p.2 rs).map fun q => (p.1 :: q.1, q.2)

/-- The spec's wording of `AppendRow`'s push condition: no chunks yet,
or the last chunk is at capacity, or the last chunk's index equals
`consumedIdx`. -/
def appendPushSpec {α : Type} (l : ListInMemory α) : Prop :=
  l.chunks = [] ∨
    ∃ c, l.chunks.getLast? = some c ∧
      (c.NumRows ≥ c.Capacity ∨ (l.chunks.length : Int) - 1 = l.consumedIdx)

/-- The push condition `preAlloc4Row` actually implements: no chunks
yet, or the last chunk is at capacity (no `consumedIdx` disjunct). -/
def preAllocPushSpec {α : Type} (l : ListInMemory α) : Prop :=
  l.chunks = [] ∨ ∃ c, l.chunks.getLast? = some c ∧ c.NumRows ≥ c.Capacity

theorem getLast?_decomp {β : Type} {xs : List β} {c : β} (h : xs.getLast? = some c) :
    xs = xs.dropLast ++ [c] :=
  (List.dropLast_append_getLast? c h).symm

theorem concat_decomp {β : Type} {xs : List β} (h : xs ≠ []) :
    ∃ L b, xs = L ++ [b] := by
  rcases List.eq_nil_or_concat xs with h' | ⟨L, b, h'⟩
  · exact absurd h' h
  · exact ⟨L, b, by simpa [List.concat_eq_append] using h'⟩

theorem getElem?_some_lt {β : Type} {xs : List β} {i : Nat} {v : β}
    (h : xs[i]? = some v) : i < xs.length := by
  by_contra hc
  rw [List.getElem?_eq_none (Nat.le_of_not_lt hc)] at h
  exact Option.noConfusion h

theorem getI_concat {β : Type} (cs : List β) (c : β) :
    getI (cs ++ [c]) (cs.length : Int) = some c := by
  have h0 : ¬ ((cs.length : Int) < 0) := by omega
  simp only [getI, if_neg h0, Int.toNat_natCast]
  exact List.getElem?_concat_length cs c

theorem getI_concat_extend {β : Type} (cs : List β) (c x : β) :
    getI ((cs ++ [c]) ++ [x]) (cs.length : Int) = some c := by
  have h0 : ¬ ((cs.length : Int) < 0) := by omega
  simp only [getI, if_neg h0, Int.toNat_natCast]
  rw [List.getElem?_append_left (by simp)]
  exact List.getElem?_concat_length cs c

theorem length_concat_sub_one {β : Type} (cs : List β) (c : β) :
    (((cs ++ [c]).length : Int)) - 1 = (cs.length : Int) := by simp

theorem sealAt_self {α : Type} (l : ListInMemory α) :
    l.sealAt l.consumedIdx = some l := by
  simp [ListInMemory.sealAt]

theorem sealAt_charge {α : Type} {l : ListInMemory α} {i : Int}
    (hne : i ≠ l.consumedIdx) {c : Chunk α} (hc : getI l.chunks i = some c) :
    l.sealAt i =
      some { l with tracker := l.tracker + (c.MemoryUsage : Int), consumedIdx := i } := by
  simp [ListInMemory.sealAt, hne, hc]

theorem allocChunk_pop {α : Type} {l : ListInMemory α} {fs : List (Chunk α)}
    {c : Chunk α} (h : l.freelist = fs ++ [c]) :
    l.allocChunk = (c.Reset,
      { l with freelist := fs, tracker := l.tracker - (c.MemoryUsage : Int) }) := by
  simp [ListInMemory.allocChunk, h, List.getLast?_concat, List.dropLast_concat]

theorem allocChunk_renew {α : Type} {l : ListInMemory α} (hf : l.freelist = [])
    {cs : List (Chunk α)} {c : Chunk α} (hc : l.chunks = cs ++ [c]) :
    l.allocChunk = (Renew c l.maxChunkSize, l) := by
  simp [ListInMemory.allocChunk, hf, hc, List.getLast?_concat]

theorem allocChunk_fresh {α : Type} {l : ListInMemory α} (hf : l.freelist = [])
    (hc : l.chunks = []) :
    l.allocChunk = (Chunk.make α l.initChunkSize, l) := by
  simp [ListInMemory.allocChunk, hf, hc]

theorem allocChunk_state {α : Type} (l : ListInMemory α) :
    (l.allocChunk).2.chunks = l.chunks ∧
    (l.allocChunk).2.consumedIdx = l.consumedIdx ∧
    (l.allocChunk).2.length = l.length ∧
    (l.allocChunk).2.initChunkSize = l.initChunkSize ∧
    (l.allocChunk).2.maxChunkSize = l.maxChunkSize := by
  rcases List.eq_nil_or_concat l.freelist with hf | ⟨fs, c, hf⟩
  · rcases List.eq_nil_or_concat l.chunks with hc | ⟨cs, c, hc⟩
    · rw [allocChunk_fresh hf hc]; exact ⟨rfl, rfl, rfl, rfl, rfl⟩
    · rw [allocChunk_renew hf (by simpa [List.concat_eq_append] using hc)]
      exact ⟨rfl, rfl, rfl, rfl, rfl⟩
  · rw [allocChunk_pop (by simpa [List.concat_eq_append] using hf)]
    exact ⟨rfl, rfl, rfl, rfl, rfl⟩

theorem allocChunk_rows {α : Type} (l : ListInMemory α) :
    (l.allocChunk).1.rows = [] := by
  rcases List.eq_nil_or_concat l.freelist with hf | ⟨fs, c, hf⟩
  · rcases List.eq_nil_or_concat l.chunks with hc | ⟨cs, c, hc⟩
    · rw [allocChunk_fresh hf hc]; rfl
    · rw [allocChunk_renew hf (by simpa [List.concat_eq_append] using hc)]; rfl
  · rw [allocChunk_pop (by simpa [List.concat_eq_append] using hf)]; rfl

theorem allocChunk_acct {α : Type} (l : ListInMemory α) :
    (l.allocChunk).2.tracker + (freeMem l : Int) =
      l.tracker + (freeMem (l.allocChunk).2 : Int) := by
  rcases List.eq_nil_or_concat l.freelist with hf | ⟨fs, c, hf⟩
  · rcases List.eq_nil_or_concat l.chunks with hc | ⟨cs, c, hc⟩
    · rw [allocChunk_fresh hf hc]
    · rw [allocChunk_renew hf (by simpa [List.concat_eq_append] using hc)]
  · rw [allocChunk_pop (hf.trans (List.concat_eq_append fs c))]
    simp only [freeMem, hf, List.concat_eq_append, List.map_append, List.sum_append,
      List.map_cons, List.map_nil, List.sum_cons, List.sum_nil]
    push_cast
    ring

theorem appendToLast_concat {α : Type} {l : ListInMemory α} {cs : List (Chunk α)}
    {c : Chunk α} (h : l.chunks = cs ++ [c]) (row : α) :
    l.appendToLast row = some (⟨cs.length, c.NumRows⟩,
      { l with chunks := cs ++ [c.appendRow row], length := l.length + 1 }) := by
  simp [ListInMemory.appendToLast, h, List.getLast?_concat, List.dropLast_concat]

theorem needNewChunk_iff {α : Type} (l : ListInMemory α) :
    l.needNewChunk = true ↔ appendPushSpec l := by
  unfold ListInMemory.needNewChunk appendPushSpec
  cases hl : l.chunks.getLast? with
  | none =>
      simp only [List.getLast?_eq_none_iff] at hl
      simp [hl]
  | some c =>
      have hne : l.chunks ≠ [] := by
        intro he; rw [he] at hl; exact Option.noConfusion hl
      simp only [Bool.or_eq_true, decide_eq_true_eq]
      constructor
      · rintro (h | h)
        · exact Or.inr ⟨c, rfl, Or.inl h⟩
        · exact Or.inr ⟨c, rfl, Or.inr h⟩
      · rintro (he | ⟨c', hc', h'⟩)
        · exact absurd he hne
        · obtain rfl : c = c' := Option.some.inj hc'
          exact h'

theorem needNewChunkPre_iff {α : Type} (l : ListInMemory α) :
    l.needNewChunkPre = true ↔ preAllocPushSpec l := by
  unfold ListInMemory.needNewChunkPre preAllocPushSpec
  cases hl : l.chunks.getLast? with
  | none =>
      simp only [List.getLast?_eq_none_iff] at hl
      simp [hl]
  | some c =>
      have hne : l.chunks ≠ [] := by
        intro he; rw [he] at hl; exact Option.noConfusion hl
      simp only [decide_eq_true_eq]
      constructor
      · intro h
        exact Or.inr ⟨c, rfl, h⟩
      · rintro (he | ⟨c', hc', h'⟩)
        · exact absurd he hne
        · obtain rfl : c = c' := Option.some.inj hc'
          exact h'

/-- The shared push step: explicit description of the state after
`pushNewChunk`, split on whether the previous last chunk gets sealed. -/
theorem pushNewChunk_some {α : Type} {l : ListInMemory α} (hwf : WFidx l) :
    ∃ l3, l.pushNewChunk = some l3 ∧
      l3.chunks = l.chunks ++ [(l.allocChunk).1] ∧
      l3.length = l.length ∧
      l3.freelist = (l.allocChunk).2.freelist ∧
      l3.initChunkSize = l.initChunkSize ∧
      l3.maxChunkSize = l.maxChunkSize ∧
      ((l.chunks.length : Int) - 1 = l.consumedIdx →
        l3.consumedIdx = l.consumedIdx ∧ l3.tracker = (l.allocChunk).2.tracker) ∧
      ((l.chunks.length : Int) - 1 ≠ l.consumedIdx →
        ∃ c, l.chunks.getLast? = some c ∧
          l3.consumedIdx = (l.chunks.length : Int) - 1 ∧
          l3.tracker = (l.allocChunk).2.tracker + (c.MemoryUsage : Int)) := by
  obtain ⟨hchunks, hcons, hlen, hinit, hmax⟩ := allocChunk_state l
  have key : l.pushNewChunk =
      ListInMemory.sealAt
        { (l.allocChunk).2 with chunks := (l.allocChunk).2.chunks ++ [(l.allocChunk).1] }
        ((l.chunks.length : Int) - 1) := rfl
  by_cases hidx : (l.chunks.length : Int) - 1 = l.consumedIdx
  · refine ⟨{ (l.allocChunk).2 with
        chunks := (l.allocChunk).2.chunks ++ [(l.allocChunk).1] }, ?_, ?_, ?_, ?_, ?_, ?_,
        ?_, ?_⟩
    · rw [key]
      have h2 : (l.chunks.length : Int) - 1 =
          ({ (l.allocChunk).2 with
             chunks := (l.allocChunk).2.chunks ++ [(l.allocChunk).1] } :
            ListInMemory α).consumedIdx := by
        rw [hidx]; exact hcons.symm
      rw [h2]
      exact sealAt_self _
    · show (l.allocChunk).2.chunks ++ [(l.allocChunk).1] = l.chunks ++ [(l.allocChunk).1]
      rw [hchunks]
    · exact hlen
    · rfl
    · exact hinit
    · exact hmax
    · intro _; exact ⟨hcons, rfl⟩
    · intro h; exact absurd hidx h
  · have hne : l.chunks ≠ [] := by
      intro he
      apply hidx
      rw [he, hwf he]
      rfl
    obtain ⟨cs, c, hc⟩ := concat_decomp hne
    have hlast : l.chunks.getLast? = some c := by rw [hc]; exact List.getLast?_concat cs
    have hget : getI ((l.allocChunk).2.chunks ++ [(l.allocChunk).1])
        ((l.chunks.length : Int) - 1) = some c := by
      rw [hchunks, hc, length_concat_sub_one cs c]
      exact getI_concat_extend cs c _
    have hne2 : (l.chunks.length : Int) - 1 ≠
        ({ (l.allocChunk).2 with
           chunks := (l.allocChunk).2.chunks ++ [(l.allocChunk).1] } :
          ListInMemory α).consumedIdx := by
      intro h
      exact hidx (h.trans hcons)
    refine ⟨_, key.trans (sealAt_charge hne2 hget), ?_, ?_, ?_, ?_, ?_, ?_, ?_⟩
    · show (l.allocChunk).2.chunks ++ [(l.allocChunk).1] = l.chunks ++ [(l.allocChunk).1]
      rw [hchunks]
    · exact hlen
    · rfl
    · exact hinit
    · exact hmax
    · intro h; exact absurd h hidx
    · intro _; exact ⟨c, hlast, rfl, rfl⟩

theorem getRow_at {α : Type} {l' : ListInMemory α} {cs : List (Chunk α)}
    {c : Chunk α} (h : l'.chunks = cs ++ [c]) {j : Nat} {v : α}
    (hj : c.rows[j]? = some v) :
    l'.GetRow ⟨cs.length, j⟩ = some v := by
  simp only [ListInMemory.GetRow, h, List.getElem?_concat_length, Option.bind_some]
  exact hj

theorem getRow_stable_extend {α : Type} {l l' : ListInMemory α} {nc : Chunk α}
    (h' : l'.chunks = l.chunks ++ [nc]) :
    ∀ q v, l.GetRow q = some v → l'.GetRow q = some v := by
  intro q v h
  unfold ListInMemory.GetRow at h ⊢
  cases hq : l.chunks[q.ChkIdx]? with
  | none => rw [hq] at h; exact Option.noConfusion h
  | some chk =>
      rw [hq] at h
      rw [h', List.getElem?_append_left (getElem?_some_lt hq), hq]
      exact h

theorem getRow_stable_lastgrow {α : Type} {l l' : ListInMemory α}
    {cs : List (Chunk α)} {c c' : Chunk α} (h : l.chunks = cs ++ [c])
    (h' : l'.chunks = cs ++ [c']) {r : α} (hrows : c'.rows = c.rows ++ [r]) :
    ∀ q v, l.GetRow q = some v → l'.GetRow q = some v := by
  intro q v hv
  unfold ListInMemory.GetRow at hv ⊢
  cases hq : l.chunks[q.ChkIdx]? with
  | none => rw [hq] at hv; exact Option.noConfusion hv
  | some chk =>
      rw [hq] at hv
      have hlt : q.ChkIdx < l.chunks.length := getElem?_some_lt hq
      by_cases hcase : q.ChkIdx < cs.length
      · rw [h'] at *
        rw [List.getElem?_append_left hcase]
        rw [h, List.getElem?_append_left hcase] at hq
        rw [hq]
        exact hv
      · have hlen : l.chunks.length = cs.length + 1 := by rw [h]; simp
        have hEq : q.ChkIdx = cs.length := by omega
        rw [h, hEq, List.getElem?_concat_length] at hq
        obtain rfl : chk = c := (Option.some.inj hq).symm
        rw [h', hEq, List.getElem?_concat_length, Option.some_bind]
        unfold Chunk.GetRow at hv ⊢
        rw [hrows, List.getElem?_append_left (getElem?_some_lt hv)]
        exact hv

theorem appendRow_eq_of_push {α : Type} {l : ListInMemory α}
    (hpush : l.needNewChunk = true) {l3 : ListInMemory α}
    (h3 : l.pushNewChunk = some l3) (row : α) :
    l.AppendRow row = l3.appendToLast row := by
  unfold ListInMemory.AppendRow
  rw [hpush, if_pos rfl, h3, Option.some_bind]

theorem appendRow_eq_of_nopush {α : Type} {l : ListInMemory α}
    (hpush : l.needNewChunk = false) (row : α) :
    l.AppendRow row = l.appendToLast row := by
  unfold ListInMemory.AppendRow
  rw [hpush]
  rw [if_neg (by simp), Option.some_bind]

theorem preAlloc4Row_eq {α : Type} (l : ListInMemory α) (row : α) :
    l.preAlloc4Row row =
      (if l.needNewChunkPre then l.pushNewChunk else some l).bind
        (fun l3 => l3.appendToLast row) := rfl

/-- When `AppendRow`'s push condition is false, the chunk list is a
nonempty concat whose last chunk is not full and is not the consumed
one. -/
theorem nopush_decomp {α : Type} {l : ListInMemory α}
    (h : l.needNewChunk = false) :
    ∃ cs c, l.chunks = cs ++ [c] ∧ ¬ c.NumRows ≥ c.Capacity ∧
      (l.chunks.length : Int) - 1 ≠ l.consumedIdx := by
  unfold ListInMemory.needNewChunk at h
  cases hl : l.chunks.getLast? with
  | none => rw [hl] at h; exact Bool.noConfusion h
  | some c =>
      rw [hl] at h
      simp only [Bool.or_eq_false_iff, decide_eq_false_iff_not] at h
      have hne : l.chunks ≠ [] := by
        intro he; rw [he] at hl; exact Option.noConfusion hl
      obtain ⟨cs, c', hc⟩ := concat_decomp hne
      have hcc : c' = c := by
        rw [hc, List.getLast?_concat] at hl
        exact Option.some.inj hl
      rw [hcc] at hc
      exact ⟨cs, c, hc, h.1, h.2⟩

/-- Full behaviour of one `AppendRow` call from any well-formed state:
it succeeds, grows `length` by one, keeps the chunk list nonempty,
writes the row at the returned pointer and preserves every previously
readable row. -/
theorem appendRow_master {α : Type} {l : ListInMemory α} (row : α)
    (hwf : WFidx l) :
    ∃ ptr l', l.AppendRow row = some (ptr, l') ∧
      l'.length = l.length + 1 ∧
      l'.chunks ≠ [] ∧
      l'.GetRow ptr = some row ∧
      (∀ q v, l.GetRow q = some v → l'.GetRow q = some v) := by
  cases hNN : l.needNewChunk with
  | true =>
      obtain ⟨l3, h3, hchunks3, hlen3, -, -, -, -, -⟩ := pushNewChunk_some hwf
      have happ := appendToLast_concat hchunks3 row
      have hrows0 : ((l.allocChunk).1).NumRows = 0 := by
        unfold Chunk.NumRows
        rw [allocChunk_rows l]
        rfl
      refine ⟨⟨l.chunks.length, ((l.allocChunk).1).NumRows⟩,
        { l3 with chunks := l.chunks ++ [(l.allocChunk).1.appendRow row]
                  length := l3.length + 1 }, ?_, ?_, ?_, ?_, ?_⟩
      · rw [appendRow_eq_of_push hNN h3 row, happ]
      · show l3.length + 1 = l.length + 1
        rw [hlen3]
      · simp
      · refine getRow_at rfl ?_
        rw [hrows0]
        show ((l.allocChunk).1.rows ++ [row])[(0 : Nat)]? = some row
        rw [allocChunk_rows l]
        rfl
      · exact getRow_stable_extend rfl
  | false =>
      obtain ⟨cs, c, hc, -, -⟩ := nopush_decomp hNN
      have happ := appendToLast_concat hc row
      refine ⟨⟨cs.length, c.NumRows⟩,
        { l with chunks := cs ++ [c.appendRow row], length := l.length + 1 },
        ?_, ?_, ?_, ?_, ?_⟩
      · rw [appendRow_eq_of_nopush hNN row, happ]
      · rfl
      · simp
      · refine getRow_at rfl ?_
        show (c.rows ++ [row])[c.rows.length]? = some row
        exact List.getElem?_concat_length c.rows row
      · exact getRow_stable_lastgrow hc rfl rfl

theorem appendRow_wf {α : Type} {l l' : ListInMemory α} {row : α} {p : RowPtr}
    (h : l.AppendRow row = some (p, l')) (hwf : WFidx l) : WFidx l' := by
  obtain ⟨ptr, l'', heq, -, hne, -, -⟩ := appendRow_master row hwf
  rw [heq] at h
  obtain ⟨rfl, rfl⟩ : ptr = p ∧ l'' = l' := by
    have := Option.some.inj h
    exact ⟨congrArg Prod.fst this, congrArg Prod.snd this⟩
  intro he
  exact absurd he hne

/-- Appending a whole sequence succeeds from any well-formed state; the
pointers read back to exactly the appended rows, in order, and all
previously readable rows stay readable. -/
theorem appendAll_spec {α : Type} :
    ∀ (rows : List α) (l : ListInMemory α), WFidx l →
    ∃ ps l', appendAll l rows = some (ps, l') ∧ WFidx l' ∧
      l'.length = l.length + rows.length ∧
      List.Forall₂ (fun p r => l'.GetRow p = some r) ps rows ∧
      (∀ q v, l.GetRow q = some v → l'.GetRow q = some v)
  | [], l, _ => ⟨[], l, rfl, ‹WFidx l›, rfl, List.Forall₂.nil, fun _ _ h => h⟩
  | r :: rs, l, hwf => by
      obtain ⟨ptr, l1, h1, hlen1, hne1, hget1, hstable1⟩ := appendRow_master r hwf
      have hwf1 : WFidx l1 := fun he => absurd he hne1
      obtain ⟨ps, l2, h2, hwf2, hlen2, hfa2, hstable2⟩ := appendAll_spec rs l1 hwf1
      refine ⟨ptr :: ps, l2, ?_, hwf2, ?_, ?_, ?_⟩
      · unfold appendAll
        rw [h1, Option.some_bind, h2]
        rfl
      · rw [hlen2, hlen1]
        simp [Nat.add_assoc, Nat.add_comm 1 rs.length]
      · exact List.Forall₂.cons (hstable2 ptr r hget1) hfa2
      · intro q v hv
        exact hstable2 q v (hstable1 q v hv)

theorem inv_wfidx {α : Type} {l : ListInMemory α} (h : Inv l) : WFidx l := by
  intro he
  rcases h.2.1 with h1 | ⟨hlen, -⟩
  · rw [he] at h1; simpa using h1
  · rw [he] at hlen; simp at hlen

theorem inv_new {α : Type} (i m : Nat) : Inv (NewListInMemory α i m) := by
  refine ⟨rfl, Or.inl rfl, ?_⟩
  show (0 : Int) = ((chargedMem (NewListInMemory α i m) : Nat) : Int) + _
  simp [chargedMem, freeMem, NewListInMemory]

theorem inv_appendRow {α : Type} {l l' : ListInMemory α} {row : α} {p : RowPtr}
    (hinv : Inv l) (h : l.AppendRow row = some (p, l')) : Inv l' := by
  obtain ⟨hLen, hIdx, hTr⟩ := hinv
  have hwf : WFidx l := inv_wfidx ⟨hLen, hIdx, hTr⟩
  cases hNN : l.needNewChunk with
  | false =>
      obtain ⟨cs, c, hc, -, hne⟩ := nopush_decomp hNN
      rw [appendRow_eq_of_nopush hNN row, appendToLast_concat hc row] at h
      obtain ⟨-, h2⟩ := Prod.mk.inj (Option.some.inj h)
      subst h2
      have hlen1 : l.chunks.length = cs.length + 1 := by rw [hc]; simp
      refine ⟨?_, ?_, ?_⟩
      · show l.length + 1 =
          ((cs ++ [c.appendRow row]).map Chunk.NumRows).sum
        have h1 : l.length = (cs.map Chunk.NumRows).sum + c.NumRows := by
          rw [hLen]
          simp [rowSum, hc]
        have h2 : (c.appendRow row).NumRows = c.NumRows + 1 := by
          simp [Chunk.appendRow, Chunk.NumRows]
        simp only [List.map_append, List.map_cons, List.map_nil, List.sum_append,
          List.sum_cons, List.sum_nil, h2]
        omega
      · show l.consumedIdx = (((cs ++ [c.appendRow row]).length : Int)) - 1 ∨
          (1 ≤ (cs ++ [c.appendRow row]).length ∧
            l.consumedIdx = (((cs ++ [c.appendRow row]).length : Int)) - 2)
        rw [hlen1] at hIdx hne
        simp only [List.length_append, List.length_cons, List.length_nil]
        omega
      · show l.tracker =
          ((((cs ++ [c.appendRow row]).map Chunk.MemoryUsage).take
              (l.consumedIdx + 1).toNat).sum : Int) +
            ((l.freelist.map Chunk.MemoryUsage).sum : Int)
        have hmm : (cs ++ [c.appendRow row]).map Chunk.MemoryUsage =
            l.chunks.map Chunk.MemoryUsage := by
          rw [hc]
          simp [Chunk.appendRow, Chunk.MemoryUsage]
        rw [hmm]
        exact hTr
  | true =>
      obtain ⟨l3, h3, hch3, hlen3, hfree3, -, -, hSelf, hSeal⟩ := pushNewChunk_some hwf
      rw [appendRow_eq_of_push hNN h3 row, appendToLast_concat hch3 row] at h
      obtain ⟨-, h2⟩ := Prod.mk.inj (Option.some.inj h)
      subst h2
      have hacct := allocChunk_acct l
      have hfp2 : (l.allocChunk).2.freelist = l3.freelist := hfree3.symm
      refine ⟨?_, ?_, ?_⟩
      · show l3.length + 1 =
          ((l.chunks ++ [(l.allocChunk).1.appendRow row]).map Chunk.NumRows).sum
        have h1 : ((l.allocChunk).1.appendRow row).NumRows = 1 := by
          simp [Chunk.appendRow, Chunk.NumRows, allocChunk_rows]
        have h2 : l.length = (l.chunks.map Chunk.NumRows).sum := hLen
        simp only [List.map_append, List.map_cons, List.map_nil, List.sum_append,
          List.sum_cons, List.sum_nil, h1, hlen3]
        omega
      · show l3.consumedIdx =
            (((l.chunks ++ [(l.allocChunk).1.appendRow row]).length : Int)) - 1 ∨
          (1 ≤ (l.chunks ++ [(l.allocChunk).1.appendRow row]).length ∧
            l3.consumedIdx =
              (((l.chunks ++ [(l.allocChunk).1.appendRow row]).length : Int)) - 2)
        simp only [List.length_append, List.length_cons, List.length_nil]
        by_cases hidx : (l.chunks.length : Int) - 1 = l.consumedIdx
        · obtain ⟨hc1, -⟩ := hSelf hidx
          rw [hc1]
          omega
        · obtain ⟨c, -, hc1, -⟩ := hSeal hidx
          rw [hc1]
          omega
      · show l3.tracker =
          ((((l.chunks ++ [(l.allocChunk).1.appendRow row]).map Chunk.MemoryUsage).take
              (l3.consumedIdx + 1).toNat).sum : Int) +
            ((l3.freelist.map Chunk.MemoryUsage).sum : Int)
        have hmaplen : (l.chunks.map Chunk.MemoryUsage).length = l.chunks.length :=
          List.length_map _ _
        have hsplit : (l.chunks ++ [(l.allocChunk).1.appendRow row]).map Chunk.MemoryUsage =
            l.chunks.map Chunk.MemoryUsage ++ [((l.allocChunk).1.appendRow row).MemoryUsage] := by
          simp
        by_cases hidx : (l.chunks.length : Int) - 1 = l.consumedIdx
        · obtain ⟨hc1, ht1⟩ := hSelf hidx
          have htn : (l3.consumedIdx + 1).toNat = l.chunks.length := by
            rw [hc1]; omega
          have htake : ((l.chunks ++ [(l.allocChunk).1.appendRow row]).map
              Chunk.MemoryUsage).take (l3.consumedIdx + 1).toNat =
              l.chunks.map Chunk.MemoryUsage := by
            rw [hsplit, htn, ← hmaplen, List.take_left]
          have hcm : chargedMem l = (l.chunks.map Chunk.MemoryUsage).sum := by
            unfold chargedMem
            have : (l.consumedIdx + 1).toNat = l.chunks.length := by omega
            rw [this, ← hmaplen, List.take_length]
          rw [htake, ht1]
          rw [hcm] at hTr
          rw [← hfp2]
          show (l.allocChunk).2.tracker =
            ((l.chunks.map Chunk.MemoryUsage).sum : Int) +
              (((l.allocChunk).2.freelist.map Chunk.MemoryUsage).sum : Int)
          have hfl : freeMem (l.allocChunk).2 =
              ((l.allocChunk).2.freelist.map Chunk.MemoryUsage).sum := rfl
          have hfl2 : freeMem l = (l.freelist.map Chunk.MemoryUsage).sum := rfl
          omega
        · obtain ⟨c, hlast, hc1, ht1⟩ := hSeal hidx
          have hdec : l.chunks = l.chunks.dropLast ++ [c] := getLast?_decomp hlast
          have hlng : l.chunks.dropLast.length = l.chunks.length - 1 :=
            List.length_dropLast _
          have hone : 1 ≤ l.chunks.length := by
            rcases hIdx with h1 | ⟨h1, -⟩
            · by_contra hz
              have : l.chunks.length = 0 := by omega
              apply hidx
              rw [h1]
            · exact h1
          have hcons2 : l.consumedIdx = (l.chunks.length : Int) - 2 := by
            rcases hIdx with h1 | ⟨-, h2⟩
            · exact absurd h1.symm hidx
            · exact h2
          have htn : (l3.consumedIdx + 1).toNat = l.chunks.length := by
            rw [hc1]; omega
          have htake : ((l.chunks ++ [(l.allocChunk).1.appendRow row]).map
              Chunk.MemoryUsage).take (l3.consumedIdx + 1).toNat =
              l.chunks.map Chunk.MemoryUsage := by
            rw [hsplit, htn, ← hmaplen, List.take_left]
          have hsum : (l.chunks.map Chunk.MemoryUsage).sum =
              (l.chunks.dropLast.map Chunk.MemoryUsage).sum + c.MemoryUsage := by
            conv_lhs => rw [hdec]
            simp
          have hcm : chargedMem l = (l.chunks.dropLast.map Chunk.MemoryUsage).sum := by
            unfold chargedMem
            have h5 : (l.consumedIdx + 1).toNat = l.chunks.length - 1 := by omega
            have hms : l.chunks.map Chunk.MemoryUsage =
                l.chunks.dropLast.map Chunk.MemoryUsage ++ [c.MemoryUsage] := by
              conv_lhs => rw [hdec]
              simp
            have h6 : l.chunks.length - 1 = (l.chunks.dropLast.map Chunk.MemoryUsage).length := by
              simp [hlng]
            rw [h5, hms, h6, List.take_left]
          rw [htake, ht1]
          rw [hcm] at hTr
          rw [← hfp2]
          show (l.allocChunk).2.tracker + (c.MemoryUsage : Int) =
            ((l.chunks.map Chunk.MemoryUsage).sum : Int) +
              (((l.allocChunk).2.freelist.map Chunk.MemoryUsage).sum : Int)
          have hfl : freeMem (l.allocChunk).2 =
              ((l.allocChunk).2.freelist.map Chunk.MemoryUsage).sum := rfl
          have hfl2 : freeMem l = (l.freelist.map Chunk.MemoryUsage).sum := rfl
          omega

theorem add_of_empty {α : Type} {l : ListInMemory α} {c : Chunk α}
    (h : c.NumRows = 0) : l.Add c = some (l, some emptyChunkErr) := by
  unfold ListInMemory.Add
  rw [if_pos h]

theorem add_of_nonempty {α : Type} {l : ListInMemory α} {c : Chunk α}
    (h : ¬ c.NumRows = 0) :
    l.Add c = (l.sealAt ((l.chunks.length : Int) - 1)).map (fun l1 =>
      ({ l1 with tracker := l1.tracker + (c.MemoryUsage : Int)
                 consumedIdx := l1.consumedIdx + 1
                 chunks := l1.chunks ++ [c]
                 length := l1.length + c.NumRows }, none)) := by
  unfold ListInMemory.Add
  rw [if_neg h]

theorem sealLast_self {α : Type} {l : ListInMemory α}
    (hidx : (l.chunks.length : Int) - 1 = l.consumedIdx) :
    l.sealAt ((l.chunks.length : Int) - 1) = some l := by
  rw [hidx]
  exact sealAt_self l

theorem sealLast_charge {α : Type} {l : ListInMemory α} {cs : List (Chunk α)}
    {c : Chunk α} (hc : l.chunks = cs ++ [c])
    (hidx : (l.chunks.length : Int) - 1 ≠ l.consumedIdx) :
    l.sealAt ((l.chunks.length : Int) - 1) =
      some { l with tracker := l.tracker + (c.MemoryUsage : Int)
                    consumedIdx := (l.chunks.length : Int) - 1 } := by
  apply sealAt_charge hidx
  rw [hc, length_concat_sub_one cs c]
  exact getI_concat cs c

theorem reset_eq {α : Type} (l : ListInMemory α) :
    l.Reset = (l.sealAt ((l.chunks.length : Int) - 1)).map (fun l1 =>
      { l1 with freelist := l1.freelist ++ l1.chunks
                chunks := []
                length := 0
                consumedIdx := -1 }) := rfl

theorem inv_add {α : Type} {l l' : ListInMemory α} {c : Chunk α} {e : Option String}
    (hinv : Inv l) (h : l.Add c = some (l', e)) : Inv l' := by
  obtain ⟨hLen, hIdx, hTr⟩ := hinv
  by_cases hz : c.NumRows = 0
  · rw [add_of_empty hz] at h
    obtain ⟨h1, -⟩ := Prod.mk.inj (Option.some.inj h)
    exact h1 ▸ ⟨hLen, hIdx, hTr⟩
  · rw [add_of_nonempty hz] at h
    by_cases hidx : (l.chunks.length : Int) - 1 = l.consumedIdx
    · rw [sealLast_self hidx, Option.map_some'] at h
      obtain ⟨h1, -⟩ := Prod.mk.inj (Option.some.inj h)
      subst h1
      refine ⟨?_, ?_, ?_⟩
      · show l.length + c.NumRows = ((l.chunks ++ [c]).map Chunk.NumRows).sum
        have h2 : l.length = (l.chunks.map Chunk.NumRows).sum := hLen
        simp only [List.map_append, List.map_cons, List.map_nil, List.sum_append,
          List.sum_cons, List.sum_nil]
        omega
      · show l.consumedIdx + 1 = (((l.chunks ++ [c]).length : Int)) - 1 ∨
          (1 ≤ (l.chunks ++ [c]).length ∧
            l.consumedIdx + 1 = (((l.chunks ++ [c]).length : Int)) - 2)
        simp only [List.length_append, List.length_cons, List.length_nil]
        omega
      · show l.tracker + (c.MemoryUsage : Int) =
          ((((l.chunks ++ [c]).map Chunk.MemoryUsage).take
              (l.consumedIdx + 1 + 1).toNat).sum : Int) +
            ((l.freelist.map Chunk.MemoryUsage).sum : Int)
        have hmaplen : (l.chunks.map Chunk.MemoryUsage).length = l.chunks.length :=
          List.length_map _ _
        have hms : (l.chunks ++ [c]).map Chunk.MemoryUsage =
            l.chunks.map Chunk.MemoryUsage ++ [c.MemoryUsage] := by simp
        have htn : (l.consumedIdx + 1 + 1).toNat =
            (l.chunks.map Chunk.MemoryUsage ++ [c.MemoryUsage]).length := by
          simp only [List.length_append, List.length_cons, List.length_nil, hmaplen]
          omega
        have htake : (((l.chunks ++ [c]).map Chunk.MemoryUsage).take
            (l.consumedIdx + 1 + 1).toNat).sum =
            (l.chunks.map Chunk.MemoryUsage).sum + c.MemoryUsage := by
          rw [hms, htn, List.take_length]
          simp
        have hcm : chargedMem l = (l.chunks.map Chunk.MemoryUsage).sum := by
          unfold chargedMem
          have h5 : (l.consumedIdx + 1).toNat = l.chunks.length := by omega
          rw [h5, ← hmaplen, List.take_length]
        have hfl2 : freeMem l = (l.freelist.map Chunk.MemoryUsage).sum := rfl
        rw [htake]
        omega
    · have hwf : WFidx l := inv_wfidx ⟨hLen, hIdx, hTr⟩
      have hne : l.chunks ≠ [] := by
        intro he
        apply hidx
        rw [he, hwf he]
        rfl
      obtain ⟨cs, c0, hc⟩ := concat_decomp hne
      rw [sealLast_charge hc hidx, Option.map_some'] at h
      obtain ⟨h1, -⟩ := Prod.mk.inj (Option.some.inj h)
      subst h1
      have hone : l.chunks.length = cs.length + 1 := by rw [hc]; simp
      have hcons2 : l.consumedIdx = (l.chunks.length : Int) - 2 := by
        rcases hIdx with h1 | ⟨-, h2⟩
        · exact absurd h1.symm hidx
        · exact h2
      refine ⟨?_, ?_, ?_⟩
      · show l.length + c.NumRows = ((l.chunks ++ [c]).map Chunk.NumRows).sum
        have h2 : l.length = (l.chunks.map Chunk.NumRows).sum := hLen
        simp only [List.map_append, List.map_cons, List.map_nil, List.sum_append,
          List.sum_cons, List.sum_nil]
        omega
      · show ((l.chunks.length : Int) - 1) + 1 = (((l.chunks ++ [c]).length : Int)) - 1 ∨
          (1 ≤ (l.chunks ++ [c]).length ∧
            ((l.chunks.length : Int) - 1) + 1 = (((l.chunks ++ [c]).length : Int)) - 2)
        simp only [List.length_append, List.length_cons, List.length_nil]
        omega
      · show l.tracker + (c0.MemoryUsage : Int) + (c.MemoryUsage : Int) =
          ((((l.chunks ++ [c]).map Chunk.MemoryUsage).take
              ((l.chunks.length : Int) - 1 + 1 + 1).toNat).sum : Int) +
            ((l.freelist.map Chunk.MemoryUsage).sum : Int)
        have hmaplen : (l.chunks.map Chunk.MemoryUsage).length = l.chunks.length :=
          List.length_map _ _
        have hms : (l.chunks ++ [c]).map Chunk.MemoryUsage =
            l.chunks.map Chunk.MemoryUsage ++ [c.MemoryUsage] := by simp
        have htn : ((l.chunks.length : Int) - 1 + 1 + 1).toNat =
            (l.chunks.map Chunk.MemoryUsage ++ [c.MemoryUsage]).length := by
          simp only [List.length_append, List.length_cons, List.length_nil, hmaplen]
          omega
        have htake : (((l.chunks ++ [c]).map Chunk.MemoryUsage).take
            ((l.chunks.length : Int) - 1 + 1 + 1).toNat).sum =
            (l.chunks.map Chunk.MemoryUsage).sum + c.MemoryUsage := by
          rw [hms, htn, List.take_length]
          simp
        have hsum : (l.chunks.map Chunk.MemoryUsage).sum =
            (cs.map Chunk.MemoryUsage).sum + c0.MemoryUsage := by
          rw [hc]
          simp
        have hcm : chargedMem l = (cs.map Chunk.MemoryUsage).sum := by
          unfold chargedMem
          have h5 : (l.consumedIdx + 1).toNat = cs.length := by omega
          have hms0 : l.chunks.map Chunk.MemoryUsage =
              cs.map Chunk.MemoryUsage ++ [c0.MemoryUsage] := by
            rw [hc]
            simp
          have h6 : cs.length = (cs.map Chunk.MemoryUsage).length :=
            (List.length_map _ _).symm
          rw [h5, hms0, h6, List.take_left]
        have hfl2 : freeMem l = (l.freelist.map Chunk.MemoryUsage).sum := rfl
        rw [htake]
        omega

theorem inv_reset {α : Type} {l l' : ListInMemory α}
    (hinv : Inv l) (h : l.Reset = some l') : Inv l' := by
  obtain ⟨hLen, hIdx, hTr⟩ := hinv
  rw [reset_eq] at h
  by_cases hidx : (l.chunks.length : Int) - 1 = l.consumedIdx
  · rw [sealLast_self hidx, Option.map_some'] at h
    have h1 := Option.some.inj h
    subst h1
    refine ⟨rfl, Or.inl (by simp), ?_⟩
    · show l.tracker =
        (((([] : List (Chunk α)).map Chunk.MemoryUsage).take ((-1 : Int) + 1).toNat).sum : Int) +
          (((l.freelist ++ l.chunks).map Chunk.MemoryUsage).sum : Int)
      have hmaplen : (l.chunks.map Chunk.MemoryUsage).length = l.chunks.length :=
        List.length_map _ _
      have hcm : chargedMem l = (l.chunks.map Chunk.MemoryUsage).sum := by
        unfold chargedMem
        have h5 : (l.consumedIdx + 1).toNat = l.chunks.length := by omega
        rw [h5, ← hmaplen, List.take_length]
      have hfl2 : freeMem l = (l.freelist.map Chunk.MemoryUsage).sum := rfl
      have hall : ((l.freelist ++ l.chunks).map Chunk.MemoryUsage).sum =
          (l.freelist.map Chunk.MemoryUsage).sum + (l.chunks.map Chunk.MemoryUsage).sum := by
        simp
      rw [hall]
      simp only [List.map_nil, List.take_nil, List.sum_nil]
      omega
  · have hwf : WFidx l := inv_wfidx ⟨hLen, hIdx, hTr⟩
    have hne : l.chunks ≠ [] := by
      intro he
      apply hidx
      rw [he, hwf he]
      rfl
    obtain ⟨cs, c0, hc⟩ := concat_decomp hne
    rw [sealLast_charge hc hidx, Option.map_some'] at h
    have h1 := Option.some.inj h
    subst h1
    have hcons2 : l.consumedIdx = (l.chunks.length : Int) - 2 := by
      rcases hIdx with h1 | ⟨-, h2⟩
      · exact absurd h1.symm hidx
      · exact h2
    have hone : l.chunks.length = cs.length + 1 := by rw [hc]; simp
    refine ⟨rfl, Or.inl (by simp), ?_⟩
    · show l.tracker + (c0.MemoryUsage : Int) =
        (((([] : List (Chunk α)).map Chunk.MemoryUsage).take ((-1 : Int) + 1).toNat).sum : Int) +
          (((l.freelist ++ l.chunks).map Chunk.MemoryUsage).sum : Int)
      have hsum : (l.chunks.map Chunk.MemoryUsage).sum =
          (cs.map Chunk.MemoryUsage).sum + c0.MemoryUsage := by
        rw [hc]
        simp
      have hcm : chargedMem l = (cs.map Chunk.MemoryUsage).sum := by
        unfold chargedMem
        have h5 : (l.consumedIdx + 1).toNat = cs.length := by omega
        have hms0 : l.chunks.map Chunk.MemoryUsage =
            cs.map Chunk.MemoryUsage ++ [c0.MemoryUsage] := by
          rw [hc]
          simp
        have h6 : cs.length = (cs.map Chunk.MemoryUsage).length :=
          (List.length_map _ _).symm
        rw [h5, hms0, h6, List.take_left]
      have hfl2 : freeMem l = (l.freelist.map Chunk.MemoryUsage).sum := rfl
      have hall : ((l.freelist ++ l.chunks).map Chunk.MemoryUsage).sum =
          (l.freelist.map Chunk.MemoryUsage).sum + (l.chunks.map Chunk.MemoryUsage).sum := by
        simp
      rw [hall]
      simp only [List.map_nil, List.take_nil, List.sum_nil]
      omega

theorem reachable_inv {α : Type} {l : ListInMemory α} (h : Reachable l) : Inv l := by
  induction h with
  | new i m => exact inv_new i m
  | append _ hstep ih => exact inv_appendRow ih hstep
  | add _ hstep ih => exact inv_add ih hstep
  | reset _ hstep ih => exact inv_reset ih hstep

theorem insert_getRow {α : Type} {l' : ListInMemory α} {k j : Nat} {chk : Chunk α}
    (hk : l'.chunks[k]? = some chk) (hj : j < chk.rows.length) (x : α) :
    ∃ l'', l'.Insert ⟨k, j⟩ x = some l'' ∧ l''.GetRow ⟨k, j⟩ = some x := by
  unfold ListInMemory.Insert Chunk.insertAt
  rw [hk, Option.some_bind, if_pos hj, Option.map_some']
  refine ⟨_, rfl, ?_⟩
  unfold ListInMemory.GetRow
  have hklen : k < l'.chunks.length := getElem?_some_lt hk
  show ((l'.chunks.set k _)[k]?).bind _ = some x
  rw [List.getElem?_set_self hklen, Option.some_bind]
  unfold Chunk.GetRow
  show ((chk.rows.set j x)[j]?) = some x
  rw [List.getElem?_set_self hj]

theorem nopushPre_decomp {α : Type} {l : ListInMemory α}
    (h : l.needNewChunkPre = false) :
    ∃ cs c, l.chunks = cs ++ [c] ∧ ¬ c.NumRows ≥ c.Capacity := by
  unfold ListInMemory.needNewChunkPre at h
  cases hl : l.chunks.getLast? with
  | none => rw [hl] at h; exact Bool.noConfusion h
  | some c =>
      rw [hl] at h
      simp only [decide_eq_false_iff_not] at h
      have hne : l.chunks ≠ [] := by
        intro he; rw [he] at hl; exact Option.noConfusion hl
      obtain ⟨cs, c', hc⟩ := concat_decomp hne
      have hcc : c' = c := by
        rw [hc, List.getLast?_concat] at hl
        exact Option.some.inj hl
      rw [hcc] at hc
      exact ⟨cs, c, hc, h⟩

theorem needNew_of_pre {α : Type} {l : ListInMemory α}
    (h : l.needNewChunkPre = true) : l.needNewChunk = true := by
  unfold ListInMemory.needNewChunkPre at h
  unfold ListInMemory.needNewChunk
  cases hl : l.chunks.getLast? with
  | none => rfl
  | some c =>
      rw [hl] at h
      have h2 : decide (c.NumRows ≥ c.Capacity) = true := h
      show (decide (c.NumRows ≥ c.Capacity) ||
        decide ((l.chunks.length : Int) - 1 = l.consumedIdx)) = true
      rw [h2]
      rfl

theorem sum_range_numRows {α : Type} (cs : List (Chunk α)) :
    ((List.range cs.length).map (fun i => ((cs[i]?).map Chunk.NumRows).getD 0)).sum
      = (cs.map Chunk.NumRows).sum := by
  induction cs with
  | nil => rfl
  | cons c cs ih =>
      rw [List.length_cons, List.range_succ_eq_map]
      simp only [List.map_cons, List.map_map, List.sum_cons]
      have hfun : ((fun i => ((((c :: cs))[i]?).map Chunk.NumRows).getD 0) ∘ (· + 1)) =
          fun i => ((cs[i]?).map Chunk.NumRows).getD 0 := by
        funext i
        simp
      rw [hfun, ih]
      simp

theorem walkSeq_length {α : Type} (l : ListInMemory α) :
    (walkSeq l).length = rowSum l := by
  unfold walkSeq rowSum
  rw [List.length_flatten, List.map_map]
  rfl

theorem walkList_ok {α ε : Type} (tr : ε → ε) (f : α → Except ε Unit) :
    ∀ xs : List α, (∀ x ∈ xs, f x = .ok ()) → walkList tr f xs = .ok ()
  | [], _ => rfl
  | x :: xs, h => by
      unfold walkList
      rw [h x (List.mem_cons_self x xs)]
      exact walkList_ok tr f xs fun y hy => h y (List.mem_cons_of_mem x hy)

theorem walkVisited_ok {α ε : Type} (f : α → Except ε Unit) :
    ∀ xs : List α, (∀ x ∈ xs, f x = .ok ()) → walkVisited f xs = xs
  | [], _ => rfl
  | x :: xs, h => by
      unfold walkVisited
      rw [h x (List.mem_cons_self x xs)]
      rw [walkVisited_ok f xs fun y hy => h y (List.mem_cons_of_mem x hy)]

theorem walkList_err {α ε : Type} (tr : ε → ε) (f : α → Except ε Unit)
    {r : α} {e : ε} (hr : f r = .error e) (rest : List α) :
    ∀ pre : List α, (∀ x ∈ pre, f x = .ok ()) →
      walkList tr f (pre ++ r :: rest) = .error (tr e)
  | [], _ => by
      unfold walkList
      rw [List.nil_append]
      show (match f r with
        | .ok _ => walkList tr f rest
        | .error e => .error (tr e)) = .error (tr e)
      rw [hr]
  | x :: pre, h => by
      rw [List.cons_append]
      unfold walkList
      rw [h x (List.mem_cons_self x pre)]
      exact walkList_err tr f hr rest pre fun y hy => h y (List.mem_cons_of_mem x hy)

theorem walkVisited_err {α ε : Type} (f : α → Except ε Unit)
    {r : α} {e : ε} (hr : f r = .error e) (rest : List α) :
    ∀ pre : List α, (∀ x ∈ pre, f x = .ok ()) →
      walkVisited f (pre ++ r :: rest) = pre ++ [r]
  | [], _ => by
      rw [List.nil_append]
      unfold walkVisited
      rw [hr]
      rfl
  | x :: pre, h => by
      rw [List.cons_append]
      unfold walkVisited
      rw [h x (List.mem_cons_self x pre)]
      rw [walkVisited_err f hr rest pre fun y hy => h y (List.mem_cons_of_mem x hy)]
      rfl

/-- C1: appending any sequence of rows to a freshly constructed
`ListInMemory` succeeds, and reading back the returned `RowPtr`s with
`GetRow`, in the order they were returned, yields exactly the appended
rows in insertion order. -/
theorem C1_appendRow_readback {α : Type} (i m : Nat) (rows : List α) :
    ∃ ps l', appendAll (NewListInMemory α i m) rows = some (ps, l') ∧
      List.Forall₂ (fun p r => l'.GetRow p = some r) ps rows := by
  obtain ⟨ps, l', h1, -, -, hfa, -⟩ :=
    appendAll_spec rows (NewListInMemory α i m) (fun _ => rfl)
  exact ⟨ps, l', h1, hfa⟩

/-- C4 counterexample: bulk-add a one-row chunk of footprint 5 to a fresh
list, then `Reset`.  The resulting state is reachable, has no chunks and
`consumedIdx = -1`, so the claimed total — the sum of footprints of
`chunks[0..consumedIdx]` plus immediately-charged footprints of
bulk-added chunks beyond `consumedIdx` (both sums over the empty chunk
sequence, hence 0) — is 0, yet the tracker holds 5: the retired chunk on
the freelist still carries its charge, which the claim omits. -/
theorem C4_counterexample :
    (((NewListInMemory Nat 2 4).Add ⟨[7], 4, 5⟩).bind fun p => p.1.Reset).map
        (fun l => (l.chunks, l.consumedIdx, l.tracker, chargedMem l)) =
      some ([], -1, 5, 0) := by decide

/-- C4 (amended): in every reachable state, `consumedIdx` lies in
`[-1, len(chunks)-1]`, and the tracker total equals the sum of the
footprints of `chunks[0..consumedIdx]` plus the footprints of the
retired chunks on the freelist (which keep their charge until
reacquired); no reachable state has a bulk-added chunk beyond
`consumedIdx`, since `Add` seals the added chunk immediately. -/
theorem C4_amended {α : Type} (l : ListInMemory α) (h : Reachable l) :
    (-1 ≤ l.consumedIdx ∧ l.consumedIdx ≤ (l.chunks.length : Int) - 1) ∧
    l.tracker = (chargedMem l : Int) + (freeMem l : Int) := by
  obtain ⟨-, hIdx, hTr⟩ := reachable_inv h
  refine ⟨?_, hTr⟩
  rcases hIdx with h1 | ⟨h1, h2⟩ <;> omega

theorem C4_witness :
    ((-1 ≤ (NewListInMemory Nat 2 4).consumedIdx ∧
      (NewListInMemory Nat 2 4).consumedIdx ≤
        (((NewListInMemory Nat 2 4).chunks.length : Int)) - 1) ∧
    (NewListInMemory Nat 2 4).tracker =
      ((chargedMem (NewListInMemory Nat 2 4) : Nat) : Int) +
        ((freeMem (NewListInMemory Nat 2 4) : Nat) : Int)) :=
  C4_amended (NewListInMemory Nat 2 4) (Reachable.new 2 4)

/-- C5: `Add` with a zero-row chunk returns the empty-chunk error and
returns the state completely unchanged (same `Len`, `NumChunks`, chunks,
`consumedIdx` and tracker total); with a nonempty chunk it returns a nil
error. -/
theorem C5_add_empty_error {α : Type} (l : ListInMemory α) (c : Chunk α) :
    (c.NumRows = 0 → l.Add c = some (l, some emptyChunkErr)) ∧
    (c.NumRows ≠ 0 → WFidx l → ∃ l', l.Add c = some (l', none)) := by
  constructor
  · exact add_of_empty
  · intro hz hwf
    rw [add_of_nonempty hz]
    by_cases hidx : (l.chunks.length : Int) - 1 = l.consumedIdx
    · rw [sealLast_self hidx, Option.map_some']
      exact ⟨_, rfl⟩
    · have hne : l.chunks ≠ [] := by
        intro he
        apply hidx
        rw [he, hwf he]
        rfl
      obtain ⟨cs, c0, hc⟩ := concat_decomp hne
      rw [sealLast_charge hc hidx, Option.map_some']
      exact ⟨_, rfl⟩

theorem C5_witness :
    ((⟨[], 4, 5⟩ : Chunk Nat).NumRows = 0 ∧
      (NewListInMemory Nat 2 4).Add ⟨[], 4, 5⟩ =
        some (NewListInMemory Nat 2 4, some emptyChunkErr)) ∧
    ((⟨[7], 4, 5⟩ : Chunk Nat).NumRows ≠ 0 ∧ WFidx (NewListInMemory Nat 2 4) ∧
      ∃ l', (NewListInMemory Nat 2 4).Add ⟨[7], 4, 5⟩ = some (l', none)) :=
  ⟨⟨by decide, (C5_add_empty_error (NewListInMemory Nat 2 4) ⟨[], 4, 5⟩).1 (by decide)⟩,
    by decide, by decide,
    (C5_add_empty_error (NewListInMemory Nat 2 4) ⟨[7], 4, 5⟩).2 (by decide) (by decide)⟩

/-- C6: in every reachable state, `Len` equals the sum of
`NumRowsOfChunk i` over all chunk indices; in particular, `appendAll` of
N rows from a fresh list leaves `Len = N`. -/
theorem C6_length_invariant {α : Type} :
    (∀ l : ListInMemory α, Reachable l →
      l.Len = ((List.range l.NumChunks).map
        (fun i => (l.NumRowsOfChunk i).getD 0)).sum) ∧
    (∀ (i m : Nat) (rows : List α) ps l',
      appendAll (NewListInMemory α i m) rows = some (ps, l') →
        l'.Len = rows.length) := by
  constructor
  · intro l h
    have hLen := (reachable_inv h).1
    show l.length = _
    unfold ListInMemory.NumRowsOfChunk ListInMemory.GetChunk ListInMemory.NumChunks
    rw [sum_range_numRows]
    exact hLen
  · intro i m rows ps l' h
    obtain ⟨ps0, l0, h0, -, hlen, -, -⟩ :=
      appendAll_spec rows (NewListInMemory α i m) (fun _ => rfl)
    rw [h0] at h
    obtain ⟨-, h2⟩ := Prod.mk.inj (Option.some.inj h)
    rw [← h2]
    show l0.length = rows.length
    have h3 : (NewListInMemory α i m).length = 0 := rfl
    omega

theorem C6_witness :
    (NewListInMemory Nat 2 4).Len =
      ((List.range (NewListInMemory Nat 2 4).NumChunks).map
        (fun i => ((NewListInMemory Nat 2 4).NumRowsOfChunk i).getD 0)).sum :=
  (C6_length_invariant).1 (NewListInMemory Nat 2 4) (Reachable.new 2 4)

/-- The full three-way policy of `allocChunk` (the conclusion of C7):
freelist pop (LIFO, releasing the popped chunk's footprint and resetting
it in place), else geometric growth from the last chunk bounded by
`maxChunkSize`, else a fresh chunk of `initChunkSize`; the returned
chunk is always empty, and the receiver's chunks, `consumedIdx` — and,
when the freelist is empty, its tracker — are untouched. -/
def AllocChunkConcl {α : Type} (l : ListInMemory α) : Prop :=
  (∀ fs c, l.freelist = fs ++ [c] →
    l.allocChunk = (c.Reset,
      { l with freelist := fs, tracker := l.tracker - (c.MemoryUsage : Int) }) ∧
    (c.Reset).NumRows = 0 ∧ (c.Reset).Capacity = c.Capacity ∧
    (c.Reset).MemoryUsage = c.MemoryUsage) ∧
  (l.freelist = [] → ∀ cs c, l.chunks = cs ++ [c] →
    l.allocChunk = (Chunk.make α (min (2 * c.Capacity) l.maxChunkSize), l)) ∧
  (l.freelist = [] → l.chunks = [] →
    l.allocChunk = (Chunk.make α l.initChunkSize, l)) ∧
  (l.allocChunk).1.NumRows = 0 ∧
  (l.allocChunk).2.chunks = l.chunks ∧
  (l.allocChunk).2.consumedIdx = l.consumedIdx

/-- C7: `allocChunk` implements exactly the three-way policy above. -/
theorem C7_allocChunk {α : Type} (l : ListInMemory α) : AllocChunkConcl l := by
  refine ⟨?_, ?_, ?_, ?_, (allocChunk_state l).1, (allocChunk_state l).2.1⟩
  · intro fs c h
    exact ⟨allocChunk_pop h, rfl, rfl, rfl⟩
  · intro hf cs c hc
    exact allocChunk_renew hf hc
  · exact allocChunk_fresh
  · show (l.allocChunk).1.rows.length = 0
    rw [allocChunk_rows]
    rfl

theorem C7_witness :
    AllocChunkConcl (⟨2, 4, 1, [⟨[7], 4, 5⟩], [⟨[9], 2, 3⟩], 8, 0⟩ : ListInMemory Nat) ∧
    (⟨2, 4, 1, [⟨[7], 4, 5⟩], [⟨[9], 2, 3⟩], 8, 0⟩ : ListInMemory Nat).allocChunk =
      (⟨[], 2, 3⟩, ⟨2, 4, 1, [⟨[7], 4, 5⟩], [], 5, 0⟩) :=
  ⟨C7_allocChunk _, by decide⟩

/-- The conclusion of C8: `Reset` moves every chunk onto the end of the
freelist (keeping its prior contents), clears the chunk list, zeroes the
length, sets `consumedIdx = -1`, and charges the last chunk's footprint
exactly when it was unsealed. -/
def ResetConcl {α : Type} (l : ListInMemory α) : Prop :=
  ∃ l', l.Reset = some l' ∧
    l'.freelist = l.freelist ++ l.chunks ∧
    l'.chunks = [] ∧ l'.Len = 0 ∧ l'.consumedIdx = -1 ∧
    ((l.chunks.length : Int) - 1 ≠ l.consumedIdx →
      ∃ c, l.chunks.getLast? = some c ∧
        l'.tracker = l.tracker + (c.MemoryUsage : Int)) ∧
    ((l.chunks.length : Int) - 1 = l.consumedIdx → l'.tracker = l.tracker)

/-- C8: `Reset` behaves as `ResetConcl` describes on every well-formed
state; in particular on a freshly constructed list it is the identity
(no tracker charge, `Len = 0`, `NumChunks = 0`). -/
theorem C8_reset {α : Type} (l : ListInMemory α) (hwf : WFidx l) :
    ResetConcl l ∧
      ∀ i m : Nat, (NewListInMemory α i m).Reset = some (NewListInMemory α i m) := by
  constructor
  · rw [ResetConcl, reset_eq]
    by_cases hidx : (l.chunks.length : Int) - 1 = l.consumedIdx
    · rw [sealLast_self hidx, Option.map_some']
      exact ⟨_, rfl, rfl, rfl, rfl, rfl, fun h => absurd hidx h, fun _ => rfl⟩
    · have hne : l.chunks ≠ [] := by
        intro he
        apply hidx
        rw [he, hwf he]
        rfl
      obtain ⟨cs, c0, hc⟩ := concat_decomp hne
      have hlast : l.chunks.getLast? = some c0 := by
        rw [hc]
        exact List.getLast?_concat cs
      rw [sealLast_charge hc hidx, Option.map_some']
      exact ⟨_, rfl, rfl, rfl, rfl, rfl,
        fun _ => ⟨c0, hlast, rfl⟩, fun h => absurd h hidx⟩
  · intro i m
    rfl

theorem C8_witness :
    WFidx (⟨2, 4, 1, [⟨[7], 4, 5⟩], [], 0, -1⟩ : ListInMemory Nat) ∧
    (ResetConcl (⟨2, 4, 1, [⟨[7], 4, 5⟩], [], 0, -1⟩ : ListInMemory Nat) ∧
      ∀ i m : Nat, (NewListInMemory Nat i m).Reset = some (NewListInMemory Nat i m)) :=
  ⟨by decide, C8_reset _ (by decide)⟩

/-- C10: in every reachable state with no chunks, `consumedIdx = -1`, so
`Add`'s sealing branch is skipped (no panic); a nonempty chunk is then
added with a net tracker delta of exactly its footprint, leaving
`consumedIdx = 0 = NumChunks - 1`. -/
theorem C10_add_to_empty {α : Type} (l : ListInMemory α) (c : Chunk α)
    (hre : Reachable l) (he : l.chunks = []) (hc : c.NumRows ≠ 0) :
    l.consumedIdx = -1 ∧
    ∃ l', l.Add c = some (l', none) ∧
      l'.tracker = l.tracker + (c.MemoryUsage : Int) ∧
      l'.consumedIdx = 0 ∧ l'.NumChunks = 1 ∧ l'.Len = l.Len + c.NumRows := by
  have hwf : WFidx l := inv_wfidx (reachable_inv hre)
  have hcons := hwf he
  refine ⟨hcons, ?_⟩
  rw [add_of_nonempty hc]
  have hidx : (l.chunks.length : Int) - 1 = l.consumedIdx := by
    rw [he, hcons]
    rfl
  rw [sealLast_self hidx, Option.map_some']
  refine ⟨_, rfl, rfl, ?_, ?_, rfl⟩
  · show l.consumedIdx + 1 = 0
    rw [hcons]
    rfl
  · show (l.chunks ++ [c]).length = 1
    rw [he]
    rfl

theorem C10_witness :
    (NewListInMemory Nat 2 4).consumedIdx = -1 ∧
    ∃ l', (NewListInMemory Nat 2 4).Add ⟨[7], 4, 5⟩ = some (l', none) ∧
      l'.tracker = (NewListInMemory Nat 2 4).tracker +
        (((⟨[7], 4, 5⟩ : Chunk Nat).MemoryUsage : Nat) : Int) ∧
      l'.consumedIdx = 0 ∧ l'.NumChunks = 1 ∧
      l'.Len = (NewListInMemory Nat 2 4).Len + (⟨[7], 4, 5⟩ : Chunk Nat).NumRows :=
  C10_add_to_empty (NewListInMemory Nat 2 4) ⟨[7], 4, 5⟩ (Reachable.new 2 4) rfl
    (by decide)

/-- The conclusion of C2: one `AppendRow` call pushes a new chunk exactly
under the spec's condition, seals (charges and records) the previous
last chunk exactly when its index differs from `consumedIdx` (on top of
whatever `allocChunk` did to the tracker), increments `length`, and the
returned pointer addresses the just-written slot in the last chunk. -/
def AppendRowStepConcl {α : Type} (l : ListInMemory α) (row : α) : Prop :=
  ∃ ptr l', l.AppendRow row = some (ptr, l') ∧
    (l'.NumChunks = l.NumChunks + 1 ↔ appendPushSpec l) ∧
    (¬ appendPushSpec l → l'.NumChunks = l.NumChunks ∧
      l'.tracker = l.tracker ∧ l'.consumedIdx = l.consumedIdx) ∧
    (appendPushSpec l →
      (((l.chunks.length : Int) - 1 ≠ l.consumedIdx →
        ∃ c, l.chunks.getLast? = some c ∧
          l'.tracker = (l.allocChunk).2.tracker + (c.MemoryUsage : Int) ∧
          l'.consumedIdx = (l.chunks.length : Int) - 1) ∧
      ((l.chunks.length : Int) - 1 = l.consumedIdx →
        l'.tracker = (l.allocChunk).2.tracker ∧ l'.consumedIdx = l.consumedIdx))) ∧
    l'.Len = l.Len + 1 ∧
    ptr.ChkIdx = l'.NumChunks - 1 ∧
    l'.GetRow ptr = some row

/-- C2: `AppendRow` satisfies `AppendRowStepConcl` from every
well-formed state. -/
theorem C2_appendRow_step {α : Type} (l : ListInMemory α) (row : α)
    (hwf : WFidx l) : AppendRowStepConcl l row := by
  rw [AppendRowStepConcl]
  cases hNN : l.needNewChunk with
  | true =>
      have hspec : appendPushSpec l := (needNewChunk_iff l).mp hNN
      obtain ⟨l3, h3, hch3, hlen3, -, -, -, hSelf, hSeal⟩ := pushNewChunk_some hwf
      have happ := appendToLast_concat hch3 row
      have heq := appendRow_eq_of_push hNN h3 row
      refine ⟨⟨l.chunks.length, ((l.allocChunk).1).NumRows⟩, _,
        heq.trans happ, ?_, ?_, ?_, ?_, ?_, ?_⟩
      · refine ⟨fun _ => hspec, fun _ => ?_⟩
        show (l.chunks ++ [(l.allocChunk).1.appendRow row]).length = l.chunks.length + 1
        simp
      · intro h
        exact absurd hspec h
      · intro _
        constructor
        · intro hidx
          obtain ⟨c, hlast, hc1, ht1⟩ := hSeal hidx
          exact ⟨c, hlast, ht1, hc1⟩
        · intro hidx
          obtain ⟨hc1, ht1⟩ := hSelf hidx
          exact ⟨ht1, hc1⟩
      · show l3.length + 1 = l.length + 1
        rw [hlen3]
      · show l.chunks.length = (l.chunks ++ [(l.allocChunk).1.appendRow row]).length - 1
        simp
      · refine getRow_at rfl ?_
        show ((l.allocChunk).1.rows ++ [row])[(l.allocChunk).1.rows.length]? = some row
        exact List.getElem?_concat_length _ _
  | false =>
      have hspec : ¬ appendPushSpec l := by
        intro hs
        rw [← needNewChunk_iff, hNN] at hs
        exact Bool.noConfusion hs
      obtain ⟨cs, c, hc, -, -⟩ := nopush_decomp hNN
      have happ := appendToLast_concat hc row
      have heq := appendRow_eq_of_nopush hNN row
      refine ⟨⟨cs.length, c.NumRows⟩, _, heq.trans happ, ?_, ?_, ?_, ?_, ?_, ?_⟩
      · constructor
        · intro habs
          exfalso
          have h1 : ({ l with chunks := cs ++ [c.appendRow row], length := l.length + 1 } : ListInMemory α).NumChunks = cs.length + 1 := by
            show (cs ++ [c.appendRow row]).length = cs.length + 1
            simp
          have h2 : l.NumChunks = cs.length + 1 := by
            show l.chunks.length = cs.length + 1
            rw [hc]
            simp
          rw [h1, h2] at habs
          omega
        · intro hs
          exact absurd hs hspec
      · intro _
        refine ⟨?_, rfl, rfl⟩
        show (cs ++ [c.appendRow row]).length = l.chunks.length
        rw [hc]
        simp
      · intro hs
        exact absurd hs hspec
      · rfl
      · show cs.length = (cs ++ [c.appendRow row]).length - 1
        simp
      · refine getRow_at rfl ?_
        show (c.rows ++ [row])[c.rows.length]? = some row
        exact List.getElem?_concat_length _ _

theorem C2_witness :
    WFidx (NewListInMemory Nat 2 4) ∧
      AppendRowStepConcl (NewListInMemory Nat 2 4) 7 :=
  ⟨by decide, C2_appendRow_step (NewListInMemory Nat 2 4) 7 (by decide)⟩

/-- C3 counterexample: from the reachable state obtained by bulk-adding a
one-row chunk of capacity 4 to a fresh list (which seals that chunk:
`consumedIdx = 0 = last index`), `AppendRow` pushes a new chunk and
returns pointer (1,0), while `preAlloc4Row` — whose push condition omits
the `consumedIdx` disjunct — appends into the sealed chunk and returns
(0,1).  So `preAlloc4Row` does not perform the identical block-selection
logic, and the two pointers differ. -/
theorem C3_counterexample :
    (((NewListInMemory Nat 2 4).Add ⟨[7], 4, 5⟩).bind fun p =>
        (p.1.AppendRow 9).map (fun q => q.1)) = some ⟨1, 0⟩ ∧
    (((NewListInMemory Nat 2 4).Add ⟨[7], 4, 5⟩).bind fun p =>
        (p.1.preAlloc4Row 9).map (fun q => q.1)) = some ⟨0, 1⟩ ∧
    (⟨1, 0⟩ : RowPtr) ≠ ⟨0, 1⟩ := by decide

/-- The conclusion of the amended C3: `preAlloc4Row` pushes a new chunk
iff no chunks exist or the last chunk is at capacity; whenever the
omitted `consumedIdx` condition does not fire separately, it returns the
pointer `AppendRow` would return; and `Insert` at the returned pointer
followed by `GetRow` yields the filled row. -/
def PreAllocConcl {α : Type} (l : ListInMemory α) (row : α) : Prop :=
  ∃ ptr l', l.preAlloc4Row row = some (ptr, l') ∧
    (l'.NumChunks = l.NumChunks + 1 ↔ preAllocPushSpec l) ∧
    (¬ preAllocPushSpec l → l'.NumChunks = l.NumChunks) ∧
    (((l.chunks.length : Int) - 1 = l.consumedIdx → preAllocPushSpec l) →
      (l.AppendRow row).map (fun q => q.1) = some ptr) ∧
    (∀ x, ∃ l'', l'.Insert ptr x = some l'' ∧ l''.GetRow ptr = some x)

/-- C3 (amended): `preAlloc4Row` satisfies `PreAllocConcl` from every
well-formed state. -/
theorem C3_amended {α : Type} (l : ListInMemory α) (row : α)
    (hwf : WFidx l) : PreAllocConcl l row := by
  rw [PreAllocConcl]
  cases hP : l.needNewChunkPre with
  | true =>
      have hspec : preAllocPushSpec l := (needNewChunkPre_iff l).mp hP
      obtain ⟨l3, h3, hch3, -, -, -, -, -, -⟩ := pushNewChunk_some hwf
      have happ := appendToLast_concat hch3 row
      have heqPre : l.preAlloc4Row row = l3.appendToLast row := by
        rw [preAlloc4Row_eq, hP, if_pos rfl, h3, Option.some_bind]
      have hNN := needNew_of_pre hP
      have heqApp := appendRow_eq_of_push hNN h3 row
      refine ⟨⟨l.chunks.length, ((l.allocChunk).1).NumRows⟩, _,
        heqPre.trans happ, ?_, ?_, ?_, ?_⟩
      · refine ⟨fun _ => hspec, fun _ => ?_⟩
        show (l.chunks ++ [(l.allocChunk).1.appendRow row]).length = l.chunks.length + 1
        simp
      · intro h
        exact absurd hspec h
      · intro _
        rw [heqApp.trans happ]
        rfl
      · intro x
        exact @insert_getRow α _ _ _ ((l.allocChunk).1.appendRow row)
          (List.getElem?_concat_length _ _)
          (by
            show ((l.allocChunk).1).rows.length < ((l.allocChunk).1.rows ++ [row]).length
            simp) x
  | false =>
      have hspec : ¬ preAllocPushSpec l := by
        intro hs
        rw [← needNewChunkPre_iff, hP] at hs
        exact Bool.noConfusion hs
      obtain ⟨cs, c, hc, hfull⟩ := nopushPre_decomp hP
      have happ := appendToLast_concat hc row
      have heqPre : l.preAlloc4Row row = l.appendToLast row := by
        rw [preAlloc4Row_eq, hP, if_neg (by simp), Option.some_bind]
      refine ⟨⟨cs.length, c.NumRows⟩, _, heqPre.trans happ, ?_, ?_, ?_, ?_⟩
      · constructor
        · intro habs
          exfalso
          have h1 : ({ l with chunks := cs ++ [c.appendRow row], length := l.length + 1 } : ListInMemory α).NumChunks = cs.length + 1 := by
            show (cs ++ [c.appendRow row]).length = cs.length + 1
            simp
          have h2 : l.NumChunks = cs.length + 1 := by
            show l.chunks.length = cs.length + 1
            rw [hc]
            simp
          rw [h1, h2] at habs
          omega
        · intro hs
          exact absurd hs hspec
      · intro _
        show (cs ++ [c.appendRow row]).length = l.chunks.length
        rw [hc]
        simp
      · intro hH
        have hidx : (l.chunks.length : Int) - 1 ≠ l.consumedIdx := fun h =>
          hspec (hH h)
        have hlast : l.chunks.getLast? = some c := by
          rw [hc]
          exact List.getLast?_concat cs
        have hNN : l.needNewChunk = false := by
          unfold ListInMemory.needNewChunk
          rw [hlast]
          simp [hfull, hidx]
        rw [appendRow_eq_of_nopush hNN row, happ]
        rfl
      · intro x
        exact @insert_getRow α _ _ _ (c.appendRow row)
          (List.getElem?_concat_length _ _)
          (by
            show c.rows.length < (c.rows ++ [row]).length
            simp) x

theorem C3_witness :
    WFidx (NewListInMemory Nat 2 4) ∧
      PreAllocConcl (NewListInMemory Nat 2 4) 7 :=
  ⟨by decide, C3_amended (NewListInMemory Nat 2 4) 7 (by decide)⟩

/-- C9: `Walk` visits rows in chunk-major, offset-minor order (the order
of `walkSeq`): when the visitor succeeds everywhere, it visits exactly
`Len` rows (in reachable states) and returns ok; when the visitor first
fails on the k-th row of that order, exactly those k rows were visited
and the wrapped failure is returned, the rest untouched. -/
theorem C9_walk {α ε : Type} (l : ListInMemory α) (tr : ε → ε)
    (f : α → Except ε Unit) :
    ((∀ r ∈ walkSeq l, f r = .ok ()) →
      l.Walk tr f = .ok () ∧ walkVisited f (walkSeq l) = walkSeq l ∧
      (Reachable l → (walkVisited f (walkSeq l)).length = l.Len)) ∧
    (∀ pre r rest e, walkSeq l = pre ++ r :: rest →
      (∀ x ∈ pre, f x = .ok ()) → f r = .error e →
      l.Walk tr f = .error (tr e) ∧
        walkVisited f (walkSeq l) = pre ++ [r]) := by
  constructor
  · intro h
    refine ⟨walkList_ok tr f _ h, walkVisited_ok f _ h, ?_⟩
    intro hre
    rw [walkVisited_ok f _ h, walkSeq_length]
    exact ((reachable_inv hre).1).symm
  · intro pre r rest e hsplit hpre hr
    constructor
    · show walkList tr f (walkSeq l) = .error (tr e)
      rw [hsplit]
      exact walkList_err tr f hr rest pre hpre
    · rw [hsplit]
      exact walkVisited_err f hr rest pre hpre

theorem C9_witness :
    ListInMemory.Walk (⟨2, 4, 3, [⟨[1, 2], 2, 2⟩, ⟨[3], 4, 4⟩], [], 0, 0⟩ :
        ListInMemory Nat) id (fun n => if n = 2 then .error 0 else .ok ()) =
      .error (id 0) ∧
    walkVisited (fun n => if n = 2 then Except.error 0 else Except.ok ())
      (walkSeq (⟨2, 4, 3, [⟨[1, 2], 2, 2⟩, ⟨[3], 4, 4⟩], [], 0, 0⟩ :
        ListInMemory Nat)) = [1] ++ [2] :=
  (C9_walk (⟨2, 4, 3, [⟨[1, 2], 2, 2⟩, ⟨[3], 4, 4⟩], [], 0, 0⟩ : ListInMemory Nat)
      id (fun n => if n = 2 then .error 0 else .ok ())).2 [1] 2 [3] 0 rfl
    (by
      intro x hx
      rw [List.mem_singleton] at hx
      subst hx
      rfl)
    rfl

end ChunkList
